import Mathlib

/-!
Shallow embedding of the rule-compilation layer of the rify reasoner
(`src/rule.rs`): the human-level `Rule` datatype, its validating
constructor `create`, the compiler `lower` that assigns dense local
integer identifiers and resolves literals through a term dictionary,
and the canonical variable enumeration `cononical_unbound` (name sic).

Modelling conventions:
- Rust `Vec` becomes `List`; the 3-element entity arrays become triples.
- The term dictionary (`Translator`, an external collaborator defined
  outside the compiled sources) is abstracted by its boundary contract
  from the spec: a forward lookup `B → Option Nat` from term value to
  global code.
- `reasoner::Triple` and `reasoner::Instantiations` are declared outside
  the visible sources; they are modelled from the spec and the test
  suite as a record of three local identifiers and a finite partial map
  from local identifier to global code.
- `BTreeMap` keyed maps are modelled as association lists in insertion
  order (lookup is key-based and insertion-order independent); the sorted
  key-order iteration that `bound_map.iter()` performs when building the
  instantiation map is recovered by an explicit insertion sort on keys.
- Indexing into a map with a possibly missing key (`unbound_map[s]`,
  which aborts the program in Rust when the key is absent) is modelled
  by `Option`: `Rule.lower` returns `none` exactly when the Rust code
  would abort, and `some` of the Rust result otherwise.
-/

deriving instance DecidableEq for Except

namespace Rify

/-- Entity: a two-variant term descriptor, a variable placeholder
`Any` or an exact literal `Exactly` (rule.rs). -/
inductive Entity (U B : Type) where
  | Any : U → Entity U B
  | Exactly : B → Entity U B
deriving DecidableEq

/-- `Entity::as_unbound` (rule.rs). -/
def Entity.as_unbound {U B : Type} : Entity U B → Option U
  | Entity.Any s => some s
  | Entity.Exactly _ => none

/-- `Entity::as_bound` (rule.rs). -/
def Entity.as_bound {U B : Type} : Entity U B → Option B
  | Entity.Any _ => none
  | Entity.Exactly s => some s

/-- A 3-element pattern `[Entity; 3]`: subject, property, object. -/
abbrev Pat (U B : Type) := Entity U B × Entity U B × Entity U B

/-- The human-level rule: premise patterns `if_all` and conclusion
patterns `then` (rule.rs; `then` is a keyword in Lean, hence `then_`). -/
structure Rule (U B : Type) where
  if_all : List (Pat U B)
  then_ : List (Pat U B)
deriving DecidableEq

/-- `reasoner::Triple`. Modelled from the spec: the reasoner is outside
the visible sources; per spec section 6 a compiled pattern exposes three
local identifiers named subject, property, object, and the test suite
reads them positionally from `Triple::from_tuple`. -/
structure Triple where
  subject : Nat
  property : Nat
  object : Nat
deriving DecidableEq

/-- `Triple::from_tuple(s, p, o)`. -/
def Triple.from_tuple (s p o : Nat) : Triple := ⟨s, p, o⟩

/-- `reasoner::Instantiations`. Modelled from the spec: a partial
mapping from local identifier to global dictionary code, represented as
an association list (assembled in ascending key order of the literal
values it is collected from). -/
abbrev Instantiations := List (Nat × Nat)

/-- The machine-oriented rule `LowRule` (rule.rs). -/
structure LowRule where
  if_all : List Triple
  then_ : List Triple
  inst : Instantiations
deriving DecidableEq

/-- `InvalidRule`: error of `Rule::create` (rule.rs). -/
inductive InvalidRule (U : Type) where
  | UnboundImplied : U → InvalidRule U
deriving DecidableEq

/-- `NoTranslation`: error of `Rule::lower` (rule.rs). The Rust value
carries a reference to the offending literal; here it carries the
literal itself. -/
structure NoTranslation (B : Type) where
  val : B
deriving DecidableEq

/-- Flatten a pattern list into its entities, left to right and top to
bottom: `pats.iter().flatten()`. -/
def entsOfPats {U B : Type} (pats : List (Pat U B)) : List (Entity U B) :=
  pats.flatMap fun e => [e.1, e.2.1, e.2.2]

/-- The unbound names occurring in a pattern list, in scan order:
`pats.iter().flatten().filter_map(Entity::as_unbound)`. -/
def unboundNames {U B : Type} (pats : List (Pat U B)) : List U :=
  (entsOfPats pats).filterMap Entity.as_unbound

/-- `Rule::iter_entities`: all entities of the rule, `if_all` first,
then `then`, each flattened in order (rule.rs). -/
def Rule.iter_entities {U B : Type} (r : Rule U B) : List (Entity U B) :=
  entsOfPats r.if_all ++ entsOfPats r.then_

/-- The bound names occurring anywhere in the rule, in scan order:
`self.iter_entities().filter_map(Entity::as_bound)`. -/
def Rule.boundNames {U B : Type} (r : Rule U B) : List B :=
  r.iter_entities.filterMap Entity.as_bound

/-- `Rule::create` (rule.rs): scan the unbound names of `then`; the
first one that no unbound name of `if_all` equals is returned as
`UnboundImplied`; otherwise the rule is built unchanged. -/
def Rule.create {U B : Type} [DecidableEq U] (if_all then_ : List (Pat U B)) :
    Except (InvalidRule U) (Rule U B) :=
  match (unboundNames then_).find?
      (fun th => ! (unboundNames if_all).any (fun ifa => decide (ifa = th))) with
  | some th => Except.error (InvalidRule.UnboundImplied th)
  | none => Except.ok ⟨if_all, then_⟩

/-- Association-list lookup by key (the lookup operation of `BTreeMap`,
which is keyed on value equality and independent of insertion order). -/
def alookup {α β : Type} [DecidableEq α] : List (α × β) → α → Option β
  | [], _ => none
  | (k, v) :: rest, a => if a = k then some v else alookup rest a

/-- The identifier-assignment loop of `Rule::lower`: for each scanned
name, `map.entry(name).or_insert_with(|| inc(&mut next_local))` — a name
not yet present is inserted with the current counter value and the
counter is incremented; a present name leaves map and counter unchanged.
Returns the finished map (as an association list in insertion order)
and the final counter. -/
def buildMap {α : Type} [DecidableEq α] : List α → List (α × Nat) → Nat → List (α × Nat) × Nat
  | [], m, next => (m, next)
  | a :: rest, m, next =>
    if (alookup m a).isSome then buildMap rest m next
    else buildMap rest (m ++ [(a, next)]) (next + 1)

/-- The `unbound_map` of `Rule::lower` together with the counter value
after it is built (the number of distinct premise variables, K):
identifiers are handed out from 0 while scanning
`if_all.iter().flatten().filter_map(Entity::as_unbound)`. -/
def Rule.unbound_map {U B : Type} [DecidableEq U] (r : Rule U B) : List (U × Nat) × Nat :=
  buildMap (unboundNames r.if_all) [] 0

/-- The `bound_map` of `Rule::lower` together with the final counter
(K+M): identifiers continue from K while scanning
`iter_entities().filter_map(Entity::as_bound)`. -/
def Rule.bound_map {U B : Type} [DecidableEq U] [DecidableEq B] (r : Rule U B) :
    List (B × Nat) × Nat :=
  buildMap r.boundNames [] r.unbound_map.2

/-- `local_name` of `Rule::lower`: map lookup for the entity's payload.
In Rust a missing key aborts the program; here it yields `none`. -/
def local_name? {U B : Type} [DecidableEq U] [DecidableEq B]
    (umap : List (U × Nat)) (bmap : List (B × Nat)) : Entity U B → Option Nat
  | Entity.Any s => alookup umap s
  | Entity.Exactly s => alookup bmap s

/-- `to_requirements` of `Rule::lower`: rebuild each 3-element pattern
as a `Triple` of the local names of its entities, preserving order.
`none` models the abort of a failed map index. -/
def to_requirements? {U B : Type} [DecidableEq U] [DecidableEq B]
    (umap : List (U × Nat)) (bmap : List (B × Nat)) :
    List (Pat U B) → Option (List Triple)
  | [] => some []
  | e :: rest =>
    match local_name? umap bmap e.1, local_name? umap bmap e.2.1,
        local_name? umap bmap e.2.2, to_requirements? umap bmap rest with
    | some s, some p, some o, some t => some (Triple.from_tuple s p o :: t)
    | _, _, _, _ => none

/-- Insert a key-value pair into a list sorted by key (helper for
recovering the ascending key-order iteration of `BTreeMap`). -/
def ordInsertKey {B : Type} [LinearOrder B] (x : B × Nat) :
    List (B × Nat) → List (B × Nat)
  | [] => [x]
  | y :: ys => if x.1 ≤ y.1 then x :: y :: ys else y :: ordInsertKey x ys

/-- Sort an association list into ascending key order: the order in
which `bound_map.iter()` visits its entries in Rust. -/
def sortByKey {B : Type} [LinearOrder B] : List (B × Nat) → List (B × Nat)
  | [] => []
  | x :: xs => ordInsertKey x (sortByKey xs)

/-- The instantiation-map assembly of `Rule::lower`:
`bound_map.iter().map(|(b, l)| tran.forward(b).ok_or(NoTranslation(b)).map(|g| (l, g))).collect::<Result<_, _>>()`,
visiting entries in ascending key order and stopping at the first
unresolvable literal. -/
def buildInst {B : Type} (tran : B → Option Nat) :
    List (B × Nat) → Except (NoTranslation B) Instantiations
  | [] => Except.ok []
  | (b, l) :: rest =>
    match tran b with
    | none => Except.error ⟨b⟩
    | some g =>
      match buildInst tran rest with
      | Except.error e => Except.error e
      | Except.ok m => Except.ok ((l, g) :: m)

/-- `Rule::lower` (rule.rs). The term dictionary is abstracted by its
forward lookup, per the spec's external-interface contract. The outer
`Option` models the Rust aborts that a rule violating the documented
invariant would cause inside `local_name`; the inner `Except` is the
Rust `Result`. Field evaluation order of the Rust struct literal is
preserved: `if_all` and `then` are rebuilt (possibly aborting) before
the instantiation map is collected (possibly failing). -/
def Rule.lower {U B : Type} [DecidableEq U] [LinearOrder B]
    (r : Rule U B) (tran : B → Option Nat) :
    Option (Except (NoTranslation B) LowRule) :=
  match to_requirements? r.unbound_map.1 r.bound_map.1 r.if_all,
      to_requirements? r.unbound_map.1 r.bound_map.1 r.then_ with
  | some ifa, some th =>
    some (match buildInst tran (sortByKey r.bound_map.1) with
      | Except.error e => Except.error e
      | Except.ok inst => Except.ok ⟨ifa, th, inst⟩)
  | _, _ => none

/-- First-appearance deduplication with an explicit seen set: the
shape of `Rule::cononical_unbound`, which filters each scanned name
through a `BTreeSet` of names already listed (rule.rs). -/
def firstSeenAux {α : Type} [DecidableEq α] (seen : List α) : List α → List α
  | [] => []
  | a :: rest =>
    if a ∈ seen then firstSeenAux seen rest
    else a :: firstSeenAux (a :: seen) rest

/-- The distinct elements of a list in first-appearance order. -/
def firstSeen {α : Type} [DecidableEq α] (l : List α) : List α :=
  firstSeenAux [] l

/-- `Rule::cononical_unbound` (rule.rs, name sic): the unique unbound
names of `if_all` in order of appearance, realised as a finite list. -/
def Rule.cononical_unbound {U B : Type} [DecidableEq U] (r : Rule U B) : List U :=
  firstSeenAux [] (unboundNames r.if_all)

/-- Pair each list element with an index, counting up from `n`. -/
def withIdxFrom {α : Type} : Nat → List α → List (α × Nat)
  | _, [] => []
  | n, a :: rest => (a, n) :: withIdxFrom (n + 1) rest

/-- Follows the spec's words (section 4.3, steps 2 and 4): the literal
table lists distinct literals of the whole rule in first-appearance
order, and resolution failure names the first literal of that table
with no forward translation. Used to compare the spec's reading of
"the first unresolved literal" with the code's behaviour. -/
def specFirstUnresolvedLiteral {U B : Type} [DecidableEq B]
    (r : Rule U B) (tran : B → Option Nat) : Option B :=
  (firstSeen r.boundNames).find? (fun b => (tran b).isNone)

end Rify

namespace Rify

/-- Concrete rule mirroring the first rule of the `lower` unit test in
rule.rs: `(?0 <10> ?1) -> (?0 <11> ?1)`. -/
def exampleRule : Rule Nat Nat :=
  ⟨[(Entity.Any 0, Entity.Exactly 10, Entity.Any 1)],
   [(Entity.Any 0, Entity.Exactly 11, Entity.Any 1)]⟩

/-- A concrete dictionary forward lookup resolving the two literals of
`exampleRule`. -/
def exampleTran : Nat → Option Nat :=
  fun b => if b = 10 then some 100 else if b = 11 then some 101 else none

/-- A second forward lookup that agrees with `exampleTran` on the
literals of `exampleRule` but differs elsewhere. -/
def exampleTran2 : Nat → Option Nat :=
  fun b => if b = 10 then some 100 else if b = 11 then some 101 else some 999

/-- The compiled form of `exampleRule` under `exampleTran`. -/
def exampleLow : LowRule :=
  ⟨[⟨0, 2, 1⟩], [⟨0, 3, 1⟩], [(2, 100), (3, 101)]⟩

theorem alookup_isSome_iff {α β : Type} [DecidableEq α] (m : List (α × β)) (a : α) :
    (alookup m a).isSome ↔ a ∈ m.map Prod.fst := by
  induction m with
  | nil => simp [alookup]
  | cons kv rest ih =>
    obtain ⟨k, v⟩ := kv
    by_cases h : a = k
    · simp [alookup, h]
    · simp [alookup, h, ih]

theorem alookup_mem {α β : Type} [DecidableEq α] {m : List (α × β)} {a : α} {b : β}
    (h : alookup m a = some b) : (a, b) ∈ m := by
  induction m with
  | nil => simp [alookup] at h
  | cons kv rest ih =>
    obtain ⟨k, v⟩ := kv
    by_cases hk : a = k
    · simp [alookup, hk] at h
      simp [hk, h]
    · simp [alookup, hk] at h
      exact List.mem_cons_of_mem _ (ih h)

theorem firstSeenAux_congr {α : Type} [DecidableEq α] (s t : List α)
    (hst : ∀ x, x ∈ s ↔ x ∈ t) (l : List α) :
    firstSeenAux s l = firstSeenAux t l := by
  induction l generalizing s t with
  | nil => simp [firstSeenAux]
  | cons a rest ih =>
    by_cases h : a ∈ s
    · rw [firstSeenAux, if_pos h, firstSeenAux, if_pos ((hst a).mp h), ih s t hst]
    · rw [firstSeenAux, if_neg h, firstSeenAux, if_neg (fun hc => h ((hst a).mpr hc))]
      rw [ih (a :: s) (a :: t) (by intro x; simp [hst x])]

theorem mem_firstSeenAux {α : Type} [DecidableEq α] (seen l : List α) (x : α) :
    x ∈ firstSeenAux seen l ↔ x ∈ l ∧ x ∉ seen := by
  induction l generalizing seen with
  | nil => simp [firstSeenAux]
  | cons a rest ih =>
    by_cases h : a ∈ seen
    · rw [firstSeenAux, if_pos h, ih seen]
      constructor
      · rintro ⟨hx, hns⟩; exact ⟨List.mem_cons_of_mem _ hx, hns⟩
      · rintro ⟨hx, hns⟩
        rcases List.mem_cons.mp hx with rfl | hx
        · exact absurd h hns
        · exact ⟨hx, hns⟩
    · rw [firstSeenAux, if_neg h]
      rw [List.mem_cons, ih (a :: seen)]
      constructor
      · rintro (rfl | ⟨hx, hns⟩)
        · exact ⟨List.mem_cons_self _ _, h⟩
        · refine ⟨List.mem_cons_of_mem _ hx, fun hc => hns (List.mem_cons_of_mem _ hc)⟩
      · rintro ⟨hx, hns⟩
        rcases List.mem_cons.mp hx with rfl | hx
        · exact Or.inl rfl
        · by_cases hax : x = a
          · exact Or.inl hax
          · exact Or.inr ⟨hx, fun hc => by
              rcases List.mem_cons.mp hc with h1 | h1
              · exact hax h1
              · exact hns h1⟩

theorem nodup_firstSeenAux {α : Type} [DecidableEq α] (seen l : List α) :
    (firstSeenAux seen l).Nodup := by
  induction l generalizing seen with
  | nil => simp [firstSeenAux]
  | cons a rest ih =>
    by_cases h : a ∈ seen
    · rw [firstSeenAux, if_pos h]; exact ih seen
    · rw [firstSeenAux, if_neg h]
      refine List.Nodup.cons ?_ (ih (a :: seen))
      intro hc
      exact ((mem_firstSeenAux (a :: seen) rest a).mp hc).2 (List.mem_cons_self _ _)

theorem mem_firstSeen {α : Type} [DecidableEq α] (l : List α) (x : α) :
    x ∈ firstSeen l ↔ x ∈ l := by
  rw [firstSeen, mem_firstSeenAux]
  simp

theorem nodup_firstSeen {α : Type} [DecidableEq α] (l : List α) :
    (firstSeen l).Nodup :=
  nodup_firstSeenAux [] l

theorem length_firstSeen_eq_card {α : Type} [DecidableEq α] (l : List α) :
    (firstSeen l).length = l.toFinset.card := by
  have h1 : (firstSeen l).toFinset = l.toFinset := by
    ext x
    simp [List.mem_toFinset, mem_firstSeen]
  rw [← h1, List.toFinset_card_of_nodup (nodup_firstSeen l)]

theorem map_fst_withIdxFrom {α : Type} (n : Nat) (l : List α) :
    (withIdxFrom n l).map Prod.fst = l := by
  induction l generalizing n with
  | nil => simp [withIdxFrom]
  | cons a rest ih => simp [withIdxFrom, ih]

theorem length_withIdxFrom {α : Type} (n : Nat) (l : List α) :
    (withIdxFrom n l).length = l.length := by
  induction l generalizing n with
  | nil => simp [withIdxFrom]
  | cons a rest ih => simp [withIdxFrom, ih]

theorem mem_map_snd_withIdxFrom {α : Type} (l : List α) (n j : Nat) :
    j ∈ (withIdxFrom n l).map Prod.snd ↔ n ≤ j ∧ j < n + l.length := by
  induction l generalizing n with
  | nil => simp [withIdxFrom]
  | cons a rest ih =>
    simp only [withIdxFrom, List.map_cons, List.mem_cons, ih (n + 1), List.length_cons]
    constructor
    · rintro (rfl | ⟨h1, h2⟩) <;> omega
    · rintro ⟨h1, h2⟩
      by_cases hj : j = n
      · exact Or.inl hj
      · exact Or.inr ⟨by omega, by omega⟩

theorem withIdxFrom_inj {α : Type} {l : List α} {n j : Nat} {x y : α}
    (hx : (x, j) ∈ withIdxFrom n l) (hy : (y, j) ∈ withIdxFrom n l) : x = y := by
  induction l generalizing n with
  | nil => simp [withIdxFrom] at hx
  | cons a rest ih =>
    simp only [withIdxFrom, List.mem_cons, Prod.mk.injEq] at hx hy
    rcases hx with ⟨hx1, hx2⟩ | hx
    · rcases hy with ⟨hy1, _⟩ | hy
      · rw [hx1, hy1]
      · exfalso
        have hb := (mem_map_snd_withIdxFrom rest (n + 1) j).mp
          (List.mem_map_of_mem Prod.snd hy)
        omega
    · rcases hy with ⟨hy1, hy2⟩ | hy
      · exfalso
        have hb := (mem_map_snd_withIdxFrom rest (n + 1) j).mp
          (List.mem_map_of_mem Prod.snd hx)
        omega
      · exact ih hx hy

theorem alookup_withIdxFrom_get {α : Type} [DecidableEq α] (l : List α)
    (hnd : l.Nodup) (n i : Nat) (h : i < l.length) :
    alookup (withIdxFrom n l) (l.get ⟨i, h⟩) = some (n + i) := by
  induction l generalizing n i with
  | nil => simp at h
  | cons a rest ih =>
    cases i with
    | zero => simp [withIdxFrom, alookup]
    | succ i =>
      have hne : rest.get ⟨i, by simpa using h⟩ ≠ a := by
        intro hc
        exact (List.nodup_cons.mp hnd).1 (hc ▸ List.get_mem rest i (by simpa using h))
      simp only [withIdxFrom, alookup, List.get_cons_succ]
      rw [if_neg hne]
      rw [ih (List.nodup_cons.mp hnd).2 (n + 1) i (by simpa using h)]
      congr 1
      omega

theorem buildMap_go {α : Type} [DecidableEq α] (l : List α) :
    ∀ (m : List (α × Nat)) (next : Nat),
      buildMap l m next =
        (m ++ withIdxFrom next (firstSeenAux (m.map Prod.fst) l),
          next + (firstSeenAux (m.map Prod.fst) l).length) := by
  induction l with
  | nil => intro m next; simp [buildMap, firstSeenAux, withIdxFrom]
  | cons a rest ih =>
    intro m next
    by_cases hmem : a ∈ m.map Prod.fst
    · have hs : (alookup m a).isSome := (alookup_isSome_iff m a).mpr hmem
      rw [buildMap, if_pos hs, ih m next, firstSeenAux, if_pos hmem]
    · have hs : ¬ (alookup m a).isSome := fun hc => hmem ((alookup_isSome_iff m a).mp hc)
      rw [buildMap, if_neg hs, ih (m ++ [(a, next)]) (next + 1)]
      have hkeys : (m ++ [(a, next)]).map Prod.fst = m.map Prod.fst ++ [a] := by simp
      have hcongr : firstSeenAux (m.map Prod.fst ++ [a]) rest
          = firstSeenAux (a :: m.map Prod.fst) rest := by
        refine firstSeenAux_congr _ _ (fun x => ?_) rest
        simp [or_comm]
      rw [hkeys, hcongr, firstSeenAux, if_neg hmem]
      refine Prod.ext ?_ ?_
      · simp [withIdxFrom, List.append_assoc]
      · simp only [List.length_cons]
        omega

theorem buildMap_nil_eq {α : Type} [DecidableEq α] (l : List α) (n : Nat) :
    buildMap l [] n = (withIdxFrom n (firstSeen l), n + (firstSeen l).length) := by
  rw [buildMap_go l [] n]
  simp [firstSeen]

theorem unbound_map_eq {U B : Type} [DecidableEq U] (r : Rule U B) :
    r.unbound_map = (withIdxFrom 0 (firstSeen (unboundNames r.if_all)),
      (firstSeen (unboundNames r.if_all)).length) := by
  rw [Rule.unbound_map, buildMap_nil_eq]
  simp

theorem bound_map_eq {U B : Type} [DecidableEq U] [DecidableEq B] (r : Rule U B) :
    r.bound_map = (withIdxFrom (firstSeen (unboundNames r.if_all)).length
        (firstSeen r.boundNames),
      (firstSeen (unboundNames r.if_all)).length + (firstSeen r.boundNames).length) := by
  rw [Rule.bound_map, buildMap_nil_eq, unbound_map_eq]

theorem perm_ordInsertKey {B : Type} [LinearOrder B] (x : B × Nat) (l : List (B × Nat)) :
    List.Perm (ordInsertKey x l) (x :: l) := by
  induction l with
  | nil => simp [ordInsertKey]
  | cons y ys ih =>
    by_cases h : x.1 ≤ y.1
    · rw [ordInsertKey, if_pos h]
    · rw [ordInsertKey, if_neg h]
      exact List.Perm.trans (List.Perm.cons y ih) (List.Perm.swap x y ys)

theorem perm_sortByKey {B : Type} [LinearOrder B] (l : List (B × Nat)) :
    List.Perm (sortByKey l) l := by
  induction l with
  | nil => simp [sortByKey]
  | cons x xs ih =>
    rw [sortByKey]
    exact List.Perm.trans (perm_ordInsertKey x (sortByKey xs)) (List.Perm.cons x ih)

theorem buildInst_ok_iff {B : Type} (tran : B → Option Nat) (l : List (B × Nat)) :
    (∃ m, buildInst tran l = Except.ok m) ↔ ∀ b ∈ l.map Prod.fst, (tran b).isSome := by
  induction l with
  | nil => simp [buildInst]
  | cons p rest ih =>
    obtain ⟨b, n⟩ := p
    cases htb : tran b with
    | none =>
      simp only [buildInst, htb, List.map_cons, List.mem_cons]
      constructor
      · rintro ⟨m, hm⟩; cases hm
      · intro hall
        have := hall b (Or.inl rfl)
        rw [htb] at this
        cases this
    | some g =>
      simp only [buildInst, htb, List.map_cons, List.mem_cons]
      constructor
      · rintro ⟨m, hm⟩
        intro c hc
        rcases hc with rfl | hc
        · rw [htb]; rfl
        · rcases hrest : buildInst tran rest with e | m2
          · rw [hrest] at hm; cases hm
          · exact (ih.mp ⟨m2, hrest⟩) c hc
      · intro hall
        obtain ⟨m2, hm2⟩ := ih.mpr (fun c hc => hall c (Or.inr hc))
        exact ⟨(n, g) :: m2, by rw [hm2]⟩

theorem buildInst_error {B : Type} (tran : B → Option Nat) (l : List (B × Nat)) (b : B)
    (h : buildInst tran l = Except.error ⟨b⟩) : b ∈ l.map Prod.fst ∧ tran b = none := by
  induction l with
  | nil => simp [buildInst] at h
  | cons p rest ih =>
    obtain ⟨c, n⟩ := p
    cases htc : tran c with
    | none =>
      rw [buildInst, htc] at h
      cases h
      exact ⟨by simp, htc⟩
    | some g =>
      rw [buildInst, htc] at h
      rcases hrest : buildInst tran rest with e | m2
      · rw [hrest] at h
        cases h
        obtain ⟨h1, h2⟩ := ih hrest
        exact ⟨by simp [h1], h2⟩
      · rw [hrest] at h
        cases h

theorem buildInst_ok_fst {B : Type} (tran : B → Option Nat) (l : List (B × Nat))
    (m : Instantiations) (h : buildInst tran l = Except.ok m) :
    m.map Prod.fst = l.map Prod.snd := by
  induction l generalizing m with
  | nil =>
    rw [buildInst] at h
    cases h
    simp
  | cons p rest ih =>
    obtain ⟨c, n⟩ := p
    cases htc : tran c with
    | none => rw [buildInst, htc] at h; cases h
    | some g =>
      rw [buildInst, htc] at h
      rcases hrest : buildInst tran rest with e | m2
      · rw [hrest] at h; cases h
      · rw [hrest] at h
        cases h
        simp [ih m2 hrest]

theorem buildInst_ok_mem {B : Type} (tran : B → Option Nat) (l : List (B × Nat))
    (m : Instantiations) (h : buildInst tran l = Except.ok m) (b : B) (n : Nat)
    (hmem : (b, n) ∈ l) : ∃ g, tran b = some g ∧ (n, g) ∈ m := by
  induction l generalizing m with
  | nil => simp at hmem
  | cons p rest ih =>
    obtain ⟨c, k⟩ := p
    cases htc : tran c with
    | none => rw [buildInst, htc] at h; cases h
    | some g =>
      rw [buildInst, htc] at h
      rcases hrest : buildInst tran rest with e | m2
      · rw [hrest] at h; cases h
      · rw [hrest] at h
        cases h
        rcases List.mem_cons.mp hmem with hp | hp
        · obtain ⟨rfl, rfl⟩ := Prod.mk.injEq .. ▸ hp
          exact ⟨g, htc, by simp⟩
        · obtain ⟨g2, hg1, hg2⟩ := ih m2 hrest hp
          exact ⟨g2, hg1, List.mem_cons_of_mem _ hg2⟩

theorem buildInst_congr {B : Type} (t1 t2 : B → Option Nat) (l : List (B × Nat))
    (hag : ∀ b ∈ l.map Prod.fst, t1 b = t2 b) : buildInst t1 l = buildInst t2 l := by
  induction l with
  | nil => rfl
  | cons p rest ih =>
    obtain ⟨c, n⟩ := p
    have hc : t1 c = t2 c := hag c (by simp)
    have hrest : buildInst t1 rest = buildInst t2 rest :=
      ih (fun b hb => hag b (List.mem_cons_of_mem _ hb))
    rw [buildInst, buildInst, ← hc, hrest]

theorem to_requirements?_cons_isSome {U B : Type} [DecidableEq U] [DecidableEq B]
    (um : List (U × Nat)) (bm : List (B × Nat)) (s p o : Entity U B)
    (rest : List (Pat U B)) :
    (to_requirements? um bm ((s, p, o) :: rest)).isSome ↔
      ((local_name? um bm s).isSome ∧ (local_name? um bm p).isSome ∧
        (local_name? um bm o).isSome ∧ (to_requirements? um bm rest).isSome) := by
  rcases h1 : local_name? um bm s with _ | n1 <;>
    rcases h2 : local_name? um bm p with _ | n2 <;>
      rcases h3 : local_name? um bm o with _ | n3 <;>
        rcases h4 : to_requirements? um bm rest with _ | t <;>
          simp [to_requirements?, h1, h2, h3, h4]

theorem to_requirements?_isSome_iff {U B : Type} [DecidableEq U] [DecidableEq B]
    (um : List (U × Nat)) (bm : List (B × Nat)) (pats : List (Pat U B)) :
    (to_requirements? um bm pats).isSome ↔
      ∀ e ∈ entsOfPats pats, (local_name? um bm e).isSome := by
  induction pats with
  | nil => simp [to_requirements?, entsOfPats]
  | cons pt rest ih =>
    obtain ⟨s, p, o⟩ := pt
    rw [to_requirements?_cons_isSome, ih]
    simp only [entsOfPats, List.flatMap_cons, List.mem_append, List.mem_cons,
      List.not_mem_nil, or_false]
    constructor
    · rintro ⟨hs, hp, ho, hrest⟩ e he
      rcases he with (rfl | rfl | rfl) | he
      · exact hs
      · exact hp
      · exact ho
      · exact hrest e he
    · intro hall
      exact ⟨hall s (Or.inl (Or.inl rfl)), hall p (Or.inl (Or.inr (Or.inl rfl))),
        hall o (Or.inl (Or.inr (Or.inr rfl))), fun e he => hall e (Or.inr he)⟩

theorem to_requirements?_length {U B : Type} [DecidableEq U] [DecidableEq B]
    {um : List (U × Nat)} {bm : List (B × Nat)} {pats : List (Pat U B)}
    {t : List Triple} (h : to_requirements? um bm pats = some t) :
    t.length = pats.length := by
  induction pats generalizing t with
  | nil =>
    rw [to_requirements?] at h
    cases h
    rfl
  | cons pt rest ih =>
    obtain ⟨s, p, o⟩ := pt
    rcases h1 : local_name? um bm s with _ | n1 <;>
      rcases h2 : local_name? um bm p with _ | n2 <;>
        rcases h3 : local_name? um bm o with _ | n3 <;>
          rcases h4 : to_requirements? um bm rest with _ | t2 <;>
            simp only [to_requirements?, h1, h2, h3, h4] at h <;> cases h
    simp [ih h4]

theorem to_requirements?_get {U B : Type} [DecidableEq U] [DecidableEq B]
    {um : List (U × Nat)} {bm : List (B × Nat)} {pats : List (Pat U B)}
    {t : List Triple} (h : to_requirements? um bm pats = some t)
    (i : Nat) (hi : i < pats.length) (hi2 : i < t.length) :
    local_name? um bm (pats.get ⟨i, hi⟩).1 = some (t.get ⟨i, hi2⟩).subject ∧
    local_name? um bm (pats.get ⟨i, hi⟩).2.1 = some (t.get ⟨i, hi2⟩).property ∧
    local_name? um bm (pats.get ⟨i, hi⟩).2.2 = some (t.get ⟨i, hi2⟩).object := by
  induction pats generalizing t i with
  | nil => simp at hi
  | cons pt rest ih =>
    obtain ⟨s, p, o⟩ := pt
    rcases h1 : local_name? um bm s with _ | n1 <;>
      rcases h2 : local_name? um bm p with _ | n2 <;>
        rcases h3 : local_name? um bm o with _ | n3 <;>
          rcases h4 : to_requirements? um bm rest with _ | t2 <;>
            simp only [to_requirements?, h1, h2, h3, h4] at h <;> cases h
    cases i with
    | zero => exact ⟨h1, h2, h3⟩
    | succ i => exact ih h4 i (by simpa using hi) (by simpa using hi2)

theorem mem_unboundNames_of_any {U B : Type} {pats : List (Pat U B)} {u : U}
    (h : Entity.Any u ∈ entsOfPats pats) : u ∈ unboundNames pats := by
  rw [unboundNames, List.mem_filterMap]
  exact ⟨Entity.Any u, h, rfl⟩

theorem mem_boundNames_of_exactly {U B : Type} {r : Rule U B} {b : B}
    (h : Entity.Exactly b ∈ r.iter_entities) : b ∈ r.boundNames := by
  rw [Rule.boundNames, List.mem_filterMap]
  exact ⟨Entity.Exactly b, h, rfl⟩

theorem map_fst_unbound_map {U B : Type} [DecidableEq U] (r : Rule U B) :
    r.unbound_map.1.map Prod.fst = firstSeen (unboundNames r.if_all) := by
  rw [unbound_map_eq, map_fst_withIdxFrom]

theorem map_fst_bound_map {U B : Type} [DecidableEq U] [DecidableEq B] (r : Rule U B) :
    r.bound_map.1.map Prod.fst = firstSeen r.boundNames := by
  rw [bound_map_eq, map_fst_withIdxFrom]

theorem local_name?_total {U B : Type} [DecidableEq U] [DecidableEq B]
    (r : Rule U B) (hv : ∀ u ∈ unboundNames r.then_, u ∈ unboundNames r.if_all)
    (e : Entity U B) (he : e ∈ r.iter_entities) :
    (local_name? r.unbound_map.1 r.bound_map.1 e).isSome := by
  cases e with
  | Any u =>
    have hu : u ∈ unboundNames r.if_all := by
      rcases List.mem_append.mp he with h | h
      · exact mem_unboundNames_of_any h
      · exact hv u (mem_unboundNames_of_any h)
    rw [local_name?, alookup_isSome_iff, map_fst_unbound_map, mem_firstSeen]
    exact hu
  | Exactly b =>
    have hb : b ∈ r.boundNames := mem_boundNames_of_exactly he
    rw [local_name?, alookup_isSome_iff, map_fst_bound_map, mem_firstSeen]
    exact hb

theorem to_requirements_total {U B : Type} [DecidableEq U] [DecidableEq B]
    (r : Rule U B) (hv : ∀ u ∈ unboundNames r.then_, u ∈ unboundNames r.if_all) :
    (to_requirements? r.unbound_map.1 r.bound_map.1 r.if_all).isSome ∧
    (to_requirements? r.unbound_map.1 r.bound_map.1 r.then_).isSome := by
  constructor <;> rw [to_requirements?_isSome_iff] <;> intro e he <;>
    refine local_name?_total r hv e ?_
  · exact List.mem_append.mpr (Or.inl he)
  · exact List.mem_append.mpr (Or.inr he)

theorem lower_ok_inv {U B : Type} [DecidableEq U] [LinearOrder B]
    {r : Rule U B} {tran : B → Option Nat} {low : LowRule}
    (h : r.lower tran = some (Except.ok low)) :
    to_requirements? r.unbound_map.1 r.bound_map.1 r.if_all = some low.if_all ∧
    to_requirements? r.unbound_map.1 r.bound_map.1 r.then_ = some low.then_ ∧
    buildInst tran (sortByKey r.bound_map.1) = Except.ok low.inst := by
  rcases h1 : to_requirements? r.unbound_map.1 r.bound_map.1 r.if_all with _ | ifa <;>
    rcases h2 : to_requirements? r.unbound_map.1 r.bound_map.1 r.then_ with _ | th <;>
      simp only [Rule.lower, h1, h2] at h <;> try cases h
  rcases h3 : buildInst tran (sortByKey r.bound_map.1) with e | inst <;>
    simp only [h3] at h <;> cases h
  exact ⟨rfl, rfl, rfl⟩

theorem lower_isSome {U B : Type} [DecidableEq U] [LinearOrder B]
    (r : Rule U B) (hv : ∀ u ∈ unboundNames r.then_, u ∈ unboundNames r.if_all)
    (tran : B → Option Nat) : (r.lower tran).isSome := by
  obtain ⟨hifa, hth⟩ := to_requirements_total r hv
  obtain ⟨ifa, h1⟩ := Option.isSome_iff_exists.mp hifa
  obtain ⟨th, h2⟩ := Option.isSome_iff_exists.mp hth
  rw [Rule.lower, h1, h2]
  rfl

theorem map_fst_sortByKey_perm {U B : Type} [DecidableEq U] [LinearOrder B] (r : Rule U B) :
    List.Perm ((sortByKey r.bound_map.1).map Prod.fst) (firstSeen r.boundNames) := by
  rw [← map_fst_bound_map]
  exact List.Perm.map Prod.fst (perm_sortByKey r.bound_map.1)

theorem lower_ok_of_resolves {U B : Type} [DecidableEq U] [LinearOrder B]
    (r : Rule U B) (tran : B → Option Nat)
    (hv : ∀ u ∈ unboundNames r.then_, u ∈ unboundNames r.if_all)
    (hres : ∀ b ∈ r.boundNames, (tran b).isSome) :
    ∃ low, r.lower tran = some (Except.ok low) := by
  obtain ⟨hifa, hth⟩ := to_requirements_total r hv
  obtain ⟨ifa, h1⟩ := Option.isSome_iff_exists.mp hifa
  obtain ⟨th, h2⟩ := Option.isSome_iff_exists.mp hth
  have hkeys : ∀ b ∈ (sortByKey r.bound_map.1).map Prod.fst, (tran b).isSome := by
    intro b hb
    have hb2 : b ∈ firstSeen r.boundNames := (map_fst_sortByKey_perm r).mem_iff.mp hb
    exact hres b ((mem_firstSeen _ b).mp hb2)
  obtain ⟨inst, h3⟩ := (buildInst_ok_iff tran (sortByKey r.bound_map.1)).mpr hkeys
  refine ⟨⟨ifa, th, inst⟩, ?_⟩
  rw [Rule.lower, h1, h2, h3]

theorem lower_resolves_of_ok {U B : Type} [DecidableEq U] [LinearOrder B]
    {r : Rule U B} {tran : B → Option Nat} {low : LowRule}
    (h : r.lower tran = some (Except.ok low)) :
    ∀ b ∈ r.boundNames, (tran b).isSome := by
  intro b hb
  have h3 := (lower_ok_inv h).2.2
  have hall := (buildInst_ok_iff tran (sortByKey r.bound_map.1)).mp ⟨low.inst, h3⟩
  refine hall b ?_
  refine (map_fst_sortByKey_perm r).mem_iff.mpr ?_
  exact (mem_firstSeen _ b).mpr hb

theorem pairwise_ordInsertKey {B : Type} [LinearOrder B] (x : B × Nat)
    (l : List (B × Nat))
    (hl : List.Pairwise (fun a c : B × Nat => a.1 ≤ c.1) l) :
    List.Pairwise (fun a c : B × Nat => a.1 ≤ c.1) (ordInsertKey x l) := by
  induction l with
  | nil => simp [ordInsertKey]
  | cons y ys ih =>
    rw [List.pairwise_cons] at hl
    obtain ⟨hy, hys⟩ := hl
    by_cases h : x.1 ≤ y.1
    · rw [ordInsertKey, if_pos h]
      refine List.Pairwise.cons ?_ (List.Pairwise.cons hy hys)
      intro z hz
      rcases List.mem_cons.mp hz with rfl | hz
      · exact h
      · exact le_trans h (hy z hz)
    · rw [ordInsertKey, if_neg h]
      refine List.Pairwise.cons ?_ (ih hys)
      intro z hz
      have hmem : z ∈ x :: ys := (perm_ordInsertKey x ys).mem_iff.mp hz
      rcases List.mem_cons.mp hmem with rfl | hz2
      · exact le_of_not_le h
      · exact hy z hz2

theorem pairwise_sortByKey {B : Type} [LinearOrder B] (l : List (B × Nat)) :
    List.Pairwise (fun a c : B × Nat => a.1 ≤ c.1) (sortByKey l) := by
  induction l with
  | nil => simp [sortByKey]
  | cons x xs ih =>
    rw [sortByKey]
    exact pairwise_ordInsertKey x (sortByKey xs) ih

theorem buildInst_error_le {B : Type} [LinearOrder B] (tran : B → Option Nat)
    (l : List (B × Nat)) (b : B)
    (hp : List.Pairwise (fun a c : B × Nat => a.1 ≤ c.1) l)
    (h : buildInst tran l = Except.error ⟨b⟩) :
    ∀ p ∈ l, tran p.1 = none → b ≤ p.1 := by
  induction l with
  | nil => simp [buildInst] at h
  | cons q rest ih =>
    obtain ⟨c, n⟩ := q
    rw [List.pairwise_cons] at hp
    obtain ⟨hc, hrest⟩ := hp
    intro p hpmem hpnone
    cases htc : tran c with
    | none =>
      rw [buildInst, htc] at h
      cases h
      rcases List.mem_cons.mp hpmem with rfl | hpm
      · exact le_refl _
      · exact hc p hpm
    | some g =>
      rw [buildInst, htc] at h
      rcases hrest2 : buildInst tran rest with e | m2
      · rw [hrest2] at h
        cases h
        rcases List.mem_cons.mp hpmem with rfl | hpm
        · rw [htc] at hpnone
          cases hpnone
        · exact ih hrest hrest2 p hpm hpnone
      · rw [hrest2] at h
        cases h

theorem lower_error_inv {U B : Type} [DecidableEq U] [LinearOrder B]
    {r : Rule U B} {tran : B → Option Nat} {b : B}
    (h : r.lower tran = some (Except.error ⟨b⟩)) :
    buildInst tran (sortByKey r.bound_map.1) = Except.error ⟨b⟩
    ∧ b ∈ r.boundNames ∧ tran b = none := by
  rcases h1 : to_requirements? r.unbound_map.1 r.bound_map.1 r.if_all with _ | ifa <;>
    rcases h2 : to_requirements? r.unbound_map.1 r.bound_map.1 r.then_ with _ | th <;>
      simp only [Rule.lower, h1, h2] at h <;> try cases h
  rcases h3 : buildInst tran (sortByKey r.bound_map.1) with e | inst <;>
    simp only [h3] at h <;> cases h
  obtain ⟨hmem, hnone⟩ := buildInst_error tran (sortByKey r.bound_map.1) b h3
  refine ⟨rfl, ?_, hnone⟩
  have hb2 : b ∈ firstSeen r.boundNames := (map_fst_sortByKey_perm r).mem_iff.mp hmem
  exact (mem_firstSeen _ b).mp hb2

theorem not_any_decide_iff {U : Type} [DecidableEq U] (l : List U) (t : U) :
    ((! l.any (fun x => decide (x = t))) = true) ↔ t ∉ l := by
  simp
  constructor
  · intro h ht
    exact h t ht rfl
  · intro h x hx hxt
    exact h (hxt ▸ hx)

theorem create_ok_valid {U B : Type} [DecidableEq U] {ia th : List (Pat U B)}
    {r : Rule U B} (hc : Rule.create ia th = Except.ok r) :
    r = ⟨ia, th⟩ ∧ ∀ u ∈ unboundNames th, u ∈ unboundNames ia := by
  rcases hf : (unboundNames th).find?
      (fun t => ! (unboundNames ia).any (fun ifa => decide (ifa = t))) with _ | u
  · have hok : Rule.create ia th = Except.ok ⟨ia, th⟩ := by
      rw [Rule.create, hf]
    rw [hok] at hc
    cases hc
    refine ⟨rfl, fun u hu => ?_⟩
    have hnp := List.find?_eq_none.mp hf u hu
    by_contra hcon
    exact hnp ((not_any_decide_iff (unboundNames ia) u).mpr hcon)
  · have herr : Rule.create ia th = Except.error (InvalidRule.UnboundImplied u) := by
      rw [Rule.create, hf]
    rw [herr] at hc
    cases hc

/-- C1: for every pair of input pattern lists, `Rule::create` succeeds
if and only if every `Unbound` value appearing in `then` also appears
somewhere in `if_all`; when it fails it returns
`InvalidRule::UnboundImplied` carrying an offending `Unbound` value
(one that occurs in `then` but nowhere in `if_all`), and no `Rule` is
produced (the only success value is the rule built from the inputs
unchanged). -/
theorem create_safety {U B : Type} [DecidableEq U] (ia th : List (Pat U B)) :
    ((∃ r, Rule.create ia th = Except.ok r) ↔
      ∀ u ∈ unboundNames th, u ∈ unboundNames ia)
    ∧ (∀ u, Rule.create ia th = Except.error (InvalidRule.UnboundImplied u) →
        u ∈ unboundNames th ∧ u ∉ unboundNames ia)
    ∧ (∀ r, Rule.create ia th = Except.ok r → r = ⟨ia, th⟩) := by
  rcases hf : (unboundNames th).find?
      (fun t => ! (unboundNames ia).any (fun ifa => decide (ifa = t))) with _ | u
  · have hok : Rule.create ia th = Except.ok ⟨ia, th⟩ := by
      rw [Rule.create, hf]
    have hall : ∀ u ∈ unboundNames th, u ∈ unboundNames ia := by
      intro u hu
      have hnp := List.find?_eq_none.mp hf u hu
      by_contra hcon
      exact hnp ((not_any_decide_iff (unboundNames ia) u).mpr hcon)
    refine ⟨⟨fun _ => hall, fun _ => ⟨⟨ia, th⟩, hok⟩⟩, ?_, ?_⟩
    · intro u hu
      rw [hok] at hu
      cases hu
    · intro r hr
      rw [hok] at hr
      cases hr
      rfl
  · have herr : Rule.create ia th = Except.error (InvalidRule.UnboundImplied u) := by
      rw [Rule.create, hf]
    have hu_mem : u ∈ unboundNames th := List.mem_of_find?_eq_some hf
    have hu_not : u ∉ unboundNames ia := by
      have hp := List.find?_some hf
      exact (not_any_decide_iff (unboundNames ia) u).mp hp
    refine ⟨⟨?_, ?_⟩, ?_, ?_⟩
    · rintro ⟨r, hr⟩
      rw [herr] at hr
      cases hr
    · intro hall
      exact (hu_not (hall u hu_mem)).elim
    · intro u2 hu2
      rw [herr] at hu2
      cases hu2
      exact ⟨hu_mem, hu_not⟩
    · intro r hr
      rw [herr] at hr
      cases hr

/-- Witness for C1: applies `create_safety` at a concrete rule. -/
theorem create_safety_witness :
    ∃ r : Rule Nat Nat,
      Rule.create [(Entity.Any 0, Entity.Exactly 10, Entity.Any 1)]
        [(Entity.Any 0, Entity.Exactly 11, Entity.Any 1)] = Except.ok r :=
  (create_safety [(Entity.Any 0, Entity.Exactly 10, Entity.Any 1)]
    [(Entity.Any 0, Entity.Exactly 11, Entity.Any 1)]).1.mpr (by decide)

/-- Counterexample for C2: the claim says a failed compilation returns
`NoTranslation` naming the FIRST unresolved literal (first-appearance
order, matching the spec's literal-table order). For the rule
`(?0 <5> <3>) ->` with an empty dictionary, the literals appear in the
order 5, 3 and both are unresolved, so the first unresolved literal is
5; but `lower` visits `bound_map` entries in ascending key order and
returns `NoTranslation 3`. -/
theorem lower_first_unresolved_counterexample :
    specFirstUnresolvedLiteral
        (Rule.mk (U := Nat) (B := Nat)
          [(Entity.Any 0, Entity.Exactly 5, Entity.Exactly 3)] [])
        (fun _ => none) = some 5
    ∧ Rule.lower
        (Rule.mk (U := Nat) (B := Nat)
          [(Entity.Any 0, Entity.Exactly 5, Entity.Exactly 3)] [])
        (fun _ => none) = some (Except.error ⟨3⟩)
    ∧ (3 : Nat) ≠ 5 :=
  ⟨by decide, by decide, by decide⟩

/-- C2 (amended): for every Rule maintaining the documented invariant
and every dictionary forward lookup, `lower` returns a compiled rule if
and only if every literal occurring anywhere in `if_all` or `then`
resolves through the forward lookup; otherwise it returns
`NoTranslation` naming the least unresolved literal in the term
ordering (not necessarily the first by appearance): the named literal
occurs in the rule, has no forward translation, and is at most every
unresolved literal of the rule; and no compiled rule is produced (the
result is the error alone). -/
theorem lower_translation_completeness {U B : Type} [DecidableEq U] [LinearOrder B]
    (r : Rule U B) (tran : B → Option Nat)
    (hv : ∀ u ∈ unboundNames r.then_, u ∈ unboundNames r.if_all) :
    ((∃ low, r.lower tran = some (Except.ok low)) ↔
      ∀ b ∈ r.boundNames, (tran b).isSome)
    ∧ (∀ b, r.lower tran = some (Except.error ⟨b⟩) →
        b ∈ r.boundNames ∧ tran b = none
        ∧ ∀ b2 ∈ r.boundNames, tran b2 = none → b ≤ b2) := by
  refine ⟨⟨?_, ?_⟩, ?_⟩
  · rintro ⟨low, hlow⟩
    exact lower_resolves_of_ok hlow
  · exact lower_ok_of_resolves r tran hv
  · intro b hb
    obtain ⟨h3, hmem, hnone⟩ := lower_error_inv hb
    refine ⟨hmem, hnone, ?_⟩
    intro b2 hb2 hb2none
    have hkey : b2 ∈ r.bound_map.1.map Prod.fst := by
      rw [map_fst_bound_map]
      exact (mem_firstSeen _ b2).mpr hb2
    obtain ⟨p, hpmem, hpfst⟩ := List.mem_map.mp hkey
    have hpmem2 : p ∈ sortByKey r.bound_map.1 :=
      (perm_sortByKey _).mem_iff.mpr hpmem
    have hle := buildInst_error_le tran (sortByKey r.bound_map.1) b
      (pairwise_sortByKey _) h3 p hpmem2 (by rw [hpfst]; exact hb2none)
    rw [hpfst] at hle
    exact hle

/-- Witness for C2: applies `lower_translation_completeness` at a
concrete rule and dictionary. -/
theorem lower_translation_completeness_witness :
    ∃ low, Rule.lower exampleRule exampleTran = some (Except.ok low) :=
  (lower_translation_completeness exampleRule exampleTran (by decide)).1.mpr (by decide)

/-- C4: during `lower`, local identifiers are assigned by
first-appearance order: the unbound map lists the distinct variables of
`if_all` in first-appearance order paired with identifiers counting up
from 0 (K of them), and the bound map lists the distinct literals of
the whole rule (`if_all` then `then`) in first-appearance order paired
with identifiers counting up from K (M of them, ending at K+M). -/
theorem lower_maps_first_appearance {U B : Type} [DecidableEq U] [DecidableEq B]
    (r : Rule U B) :
    r.unbound_map = (withIdxFrom 0 (firstSeen (unboundNames r.if_all)),
      (firstSeen (unboundNames r.if_all)).length)
    ∧ r.bound_map = (withIdxFrom (firstSeen (unboundNames r.if_all)).length
        (firstSeen r.boundNames),
      (firstSeen (unboundNames r.if_all)).length + (firstSeen r.boundNames).length) :=
  ⟨unbound_map_eq r, bound_map_eq r⟩

/-- Witness for C4: applies `lower_maps_first_appearance` at a concrete
rule. -/
theorem lower_maps_first_appearance_witness :
    Rule.unbound_map exampleRule = (withIdxFrom 0 (firstSeen (unboundNames exampleRule.if_all)),
      (firstSeen (unboundNames exampleRule.if_all)).length) :=
  (lower_maps_first_appearance exampleRule).1

/-- C5: `cononical_unbound` yields exactly the distinct `Unbound`
values referenced in `if_all`, each exactly once (no duplicates), and
the value at position i is precisely the variable to which `lower`
assigns local identifier i, for every i below K (which equals the
length of the enumeration). -/
theorem cononical_unbound_parity {U B : Type} [DecidableEq U] (r : Rule U B) :
    r.cononical_unbound.Nodup
    ∧ (∀ u, u ∈ r.cononical_unbound ↔ u ∈ unboundNames r.if_all)
    ∧ r.cononical_unbound.length = r.unbound_map.2
    ∧ (∀ i (h : i < r.cononical_unbound.length),
        alookup r.unbound_map.1 (r.cononical_unbound.get ⟨i, h⟩) = some i) := by
  refine ⟨nodup_firstSeenAux [] _, fun u => mem_firstSeen _ u, ?_, ?_⟩
  · rw [unbound_map_eq]
    rfl
  · intro i h
    rw [unbound_map_eq]
    have hg := alookup_withIdxFrom_get (firstSeen (unboundNames r.if_all))
      (nodup_firstSeen _) 0 i h
    simpa using hg

/-- Witness for C5: applies `cononical_unbound_parity` at a concrete
rule and position. -/
theorem cononical_unbound_parity_witness :
    alookup exampleRule.unbound_map.1
      (exampleRule.cononical_unbound.get ⟨1, by decide⟩) = some 1 :=
  (cononical_unbound_parity exampleRule).2.2.2 1 (by decide)

/-- C3: for every successfully compiled Rule, with K the number of
distinct `Unbound` values in `if_all` and M the number of distinct
`Bound` values in the whole rule, the set of local identifiers assigned
is exactly the numbers below K+M (no gaps, no duplicates); every
identifier assigned to a variable is strictly less than every
identifier assigned to a literal; and no identifier is assigned to two
distinct human-level values — in particular the variable table and the
literal table never share an identifier, so a variable and a literal
with the same spelling receive different identifiers. -/
theorem lower_local_ids_dense_partitioned {U B : Type} [DecidableEq U] [LinearOrder B]
    (r : Rule U B) (tran : B → Option Nat) (low : LowRule)
    (hs : r.lower tran = some (Except.ok low)) :
    (∀ j, (j ∈ r.unbound_map.1.map Prod.snd ∨ j ∈ r.bound_map.1.map Prod.snd) ↔
        j < (unboundNames r.if_all).toFinset.card + (Rule.boundNames r).toFinset.card)
    ∧ (∀ i ∈ r.unbound_map.1.map Prod.snd, ∀ j ∈ r.bound_map.1.map Prod.snd, i < j)
    ∧ (∀ x y j, (x, j) ∈ r.unbound_map.1 → (y, j) ∈ r.unbound_map.1 → x = y)
    ∧ (∀ x y j, (x, j) ∈ r.bound_map.1 → (y, j) ∈ r.bound_map.1 → x = y)
    ∧ (∀ j, j ∈ r.unbound_map.1.map Prod.snd → j ∉ r.bound_map.1.map Prod.snd) := by
  refine ⟨?_, ?_, ?_, ?_, ?_⟩
  · intro j
    rw [← length_firstSeen_eq_card (unboundNames r.if_all),
      ← length_firstSeen_eq_card (Rule.boundNames r)]
    simp only [unbound_map_eq, bound_map_eq, mem_map_snd_withIdxFrom]
    omega
  · intro i hi j hj
    simp only [unbound_map_eq, bound_map_eq, mem_map_snd_withIdxFrom] at hi hj
    omega
  · intro x y j hx hy
    simp only [unbound_map_eq] at hx hy
    exact withIdxFrom_inj hx hy
  · intro x y j hx hy
    simp only [bound_map_eq] at hx hy
    exact withIdxFrom_inj hx hy
  · intro j hu hb
    simp only [unbound_map_eq, bound_map_eq, mem_map_snd_withIdxFrom] at hu hb
    omega

/-- Witness for C3: applies `lower_local_ids_dense_partitioned` at a
concrete compiled rule and identifier. -/
theorem lower_local_ids_dense_partitioned_witness :
    (2 ∈ exampleRule.unbound_map.1.map Prod.snd ∨
        2 ∈ exampleRule.bound_map.1.map Prod.snd) ↔
      2 < (unboundNames exampleRule.if_all).toFinset.card +
        (Rule.boundNames exampleRule).toFinset.card :=
  (lower_local_ids_dense_partitioned exampleRule exampleTran exampleLow (by decide)).1 2

/-- C6: for every successfully compiled Rule, the output's `if_all` and
`then` have the same lengths as the input's, and the i-th output
triple's subject, property and object are exactly the local identifiers
of the three entities of the i-th input pattern, in the same positions. -/
theorem lower_preserves_arity_order {U B : Type} [DecidableEq U] [LinearOrder B]
    (r : Rule U B) (tran : B → Option Nat) (low : LowRule)
    (hs : r.lower tran = some (Except.ok low)) :
    low.if_all.length = r.if_all.length
    ∧ low.then_.length = r.then_.length
    ∧ (∀ i (h1 : i < r.if_all.length) (h2 : i < low.if_all.length),
        local_name? r.unbound_map.1 r.bound_map.1 (r.if_all.get ⟨i, h1⟩).1
            = some (low.if_all.get ⟨i, h2⟩).subject
        ∧ local_name? r.unbound_map.1 r.bound_map.1 (r.if_all.get ⟨i, h1⟩).2.1
            = some (low.if_all.get ⟨i, h2⟩).property
        ∧ local_name? r.unbound_map.1 r.bound_map.1 (r.if_all.get ⟨i, h1⟩).2.2
            = some (low.if_all.get ⟨i, h2⟩).object)
    ∧ (∀ i (h1 : i < r.then_.length) (h2 : i < low.then_.length),
        local_name? r.unbound_map.1 r.bound_map.1 (r.then_.get ⟨i, h1⟩).1
            = some (low.then_.get ⟨i, h2⟩).subject
        ∧ local_name? r.unbound_map.1 r.bound_map.1 (r.then_.get ⟨i, h1⟩).2.1
            = some (low.then_.get ⟨i, h2⟩).property
        ∧ local_name? r.unbound_map.1 r.bound_map.1 (r.then_.get ⟨i, h1⟩).2.2
            = some (low.then_.get ⟨i, h2⟩).object) := by
  obtain ⟨hifa, hth, _⟩ := lower_ok_inv hs
  exact ⟨to_requirements?_length hifa, to_requirements?_length hth,
    fun i h1 h2 => to_requirements?_get hifa i h1 h2,
    fun i h1 h2 => to_requirements?_get hth i h1 h2⟩

/-- Witness for C6: applies `lower_preserves_arity_order` at a concrete
compiled rule. -/
theorem lower_preserves_arity_order_witness :
    exampleLow.if_all.length = exampleRule.if_all.length
    ∧ exampleLow.then_.length = exampleRule.then_.length :=
  ⟨(lower_preserves_arity_order exampleRule exampleTran exampleLow (by decide)).1,
    (lower_preserves_arity_order exampleRule exampleTran exampleLow (by decide)).2.1⟩

/-- C7: for every successfully compiled Rule, the instantiation map's
domain is exactly the literal identifiers from K up to (but excluding)
K+M — so it contains no variable identifier below K — and every
distinct literal value with assigned local identifier l is sent to the
dictionary's forward code for it. -/
theorem lower_inst_domain {U B : Type} [DecidableEq U] [LinearOrder B]
    (r : Rule U B) (tran : B → Option Nat) (low : LowRule)
    (hs : r.lower tran = some (Except.ok low)) :
    (∀ j, j ∈ low.inst.map Prod.fst ↔ r.unbound_map.2 ≤ j ∧ j < r.bound_map.2)
    ∧ (∀ b l, alookup r.bound_map.1 b = some l →
        ∃ g, tran b = some g ∧ (l, g) ∈ low.inst) := by
  obtain ⟨_, _, hinst⟩ := lower_ok_inv hs
  constructor
  · intro j
    have hfst := buildInst_ok_fst tran (sortByKey r.bound_map.1) low.inst hinst
    rw [hfst]
    have hperm : List.Perm ((sortByKey r.bound_map.1).map Prod.snd)
        (r.bound_map.1.map Prod.snd) :=
      List.Perm.map Prod.snd (perm_sortByKey _)
    rw [hperm.mem_iff]
    simp only [unbound_map_eq, bound_map_eq, mem_map_snd_withIdxFrom]
  · intro b l hbl
    have hmem : (b, l) ∈ r.bound_map.1 := alookup_mem hbl
    have hmem2 : (b, l) ∈ sortByKey r.bound_map.1 :=
      (perm_sortByKey _).mem_iff.mpr hmem
    exact buildInst_ok_mem tran _ low.inst hinst b l hmem2

/-- Witness for C7: applies `lower_inst_domain` at a concrete compiled
rule and identifier. -/
theorem lower_inst_domain_witness :
    2 ∈ exampleLow.inst.map Prod.fst ↔
      exampleRule.unbound_map.2 ≤ 2 ∧ 2 < exampleRule.bound_map.2 :=
  (lower_inst_domain exampleRule exampleTran exampleLow (by decide)).1 2

/-- C8: `lower` is deterministic — it is a pure function of the rule
and the dictionary's forward lookup, and its output depends on the
lookup only at the literals occurring in the rule: two dictionary
states agreeing there (in particular, the same unchanged state) yield
identical compiled output in every component. -/
theorem lower_deterministic {U B : Type} [DecidableEq U] [LinearOrder B]
    (r : Rule U B) (t1 t2 : B → Option Nat)
    (hag : ∀ b ∈ r.boundNames, t1 b = t2 b) :
    r.lower t1 = r.lower t2 := by
  have hinst : buildInst t1 (sortByKey r.bound_map.1)
      = buildInst t2 (sortByKey r.bound_map.1) := by
    refine buildInst_congr t1 t2 _ (fun b hb => ?_)
    have hb2 : b ∈ firstSeen r.boundNames := (map_fst_sortByKey_perm r).mem_iff.mp hb
    exact hag b ((mem_firstSeen _ b).mp hb2)
  simp only [Rule.lower, hinst]

/-- Witness for C8: applies `lower_deterministic` to two concrete
dictionary states agreeing on the rule's literals. -/
theorem lower_deterministic_witness :
    Rule.lower exampleRule exampleTran = Rule.lower exampleRule exampleTran2 :=
  lower_deterministic exampleRule exampleTran exampleTran2 (by decide)

/-- C9: degenerate rules are valid: `create` succeeds on empty `if_all`
with empty `then`, and on empty `if_all` with a variable-free `then`;
lowering the fully empty rule succeeds against any dictionary with
empty output, and lowering an empty-premise variable-free rule whose
literals all resolve succeeds with an empty premise list and a
conclusion list of the input's length. -/
theorem degenerate_rules_ok {U B : Type} [DecidableEq U] [LinearOrder B]
    (th : List (Pat U B)) (tran : B → Option Nat)
    (hnv : unboundNames th = [])
    (hres : ∀ b ∈ Rule.boundNames ⟨[], th⟩, (tran b).isSome) :
    Rule.create ([] : List (Pat U B)) [] = Except.ok ⟨[], []⟩
    ∧ Rule.create ([] : List (Pat U B)) th = Except.ok ⟨[], th⟩
    ∧ Rule.lower (U := U) (B := B) ⟨[], []⟩ tran = some (Except.ok ⟨[], [], []⟩)
    ∧ (∃ low, Rule.lower ⟨[], th⟩ tran = some (Except.ok low)
        ∧ low.if_all = [] ∧ low.then_.length = th.length) := by
  have hv : ∀ u ∈ unboundNames ((Rule.mk ([] : List (Pat U B)) th).then_),
      u ∈ unboundNames ((Rule.mk ([] : List (Pat U B)) th).if_all) := by
    intro u hu
    rw [hnv] at hu
    exact absurd hu (List.not_mem_nil u)
  refine ⟨rfl, ?_, rfl, ?_⟩
  · rw [Rule.create, hnv]
    rfl
  · obtain ⟨low, hlow⟩ := lower_ok_of_resolves ⟨[], th⟩ tran hv hres
    obtain ⟨hifa, hth, _⟩ := lower_ok_inv hlow
    refine ⟨low, hlow, ?_, to_requirements?_length hth⟩
    have : (some [] : Option (List Triple)) = some low.if_all := hifa
    exact (Option.some.inj this).symm

/-- Witness for C9: applies `degenerate_rules_ok` at a concrete
variable-free conclusion list. -/
theorem degenerate_rules_ok_witness :
    Rule.lower (U := Nat) (B := Nat) ⟨[], []⟩ exampleTran = some (Except.ok ⟨[], [], []⟩) :=
  (degenerate_rules_ok (U := Nat) (B := Nat)
    [(Entity.Exactly 10, Entity.Exactly 10, Entity.Exactly 10)] exampleTran
    (by decide) (by decide)).2.2.1

/-- C10: for every Rule obtained from `Rule::create` (hence satisfying
the range-restriction invariant), the variable-table lookup performed
while rebuilding patterns in `lower` is total: every `Any` entity of
`if_all` or `then` is a key of the unbound map (and every `Exactly`
entity a key of the bound map), so the indexing inside `local_name`
never reaches its failure branch and `lower` never returns the `none`
that models that abort. -/
theorem lower_lookup_total {U B : Type} [DecidableEq U] [LinearOrder B]
    (ia th : List (Pat U B)) (r : Rule U B)
    (hc : Rule.create ia th = Except.ok r) :
    (∀ u, Entity.Any (B := B) u ∈ r.iter_entities →
        (alookup r.unbound_map.1 u).isSome)
    ∧ (∀ e ∈ r.iter_entities,
        (local_name? r.unbound_map.1 r.bound_map.1 e).isSome)
    ∧ (∀ tran : B → Option Nat, r.lower tran ≠ none) := by
  obtain ⟨hr, hval⟩ := create_ok_valid hc
  have hv : ∀ u ∈ unboundNames r.then_, u ∈ unboundNames r.if_all := by
    rw [hr]
    exact hval
  refine ⟨?_, ?_, ?_⟩
  · intro u hu
    exact local_name?_total r hv (Entity.Any u) hu
  · intro e he
    exact local_name?_total r hv e he
  · intro tran hn
    have hs := lower_isSome r hv tran
    rw [hn] at hs
    cases hs

/-- Witness for C10: applies `lower_lookup_total` at a concrete rule
produced by `create`. -/
theorem lower_lookup_total_witness :
    (alookup exampleRule.unbound_map.1 0).isSome = true :=
  (lower_lookup_total exampleRule.if_all exampleRule.then_ exampleRule
    (by decide)).1 0 (by decide)
